import Mathlib

/-!
Shallow embedding of the conversation-memory core of the
`context-window-architecture` repository, together with proofs of the
specification claims about it.

Embedded source files:
* `src/utils/chat_history_manager.py` (`ChatHistoryManager`)
* `src/utils/search_manager.py` (`SearchManager`)
* `src/plugins/memory.py` (`AgenticMemorySystem`)

Modelling conventions:
* Python lists are Lean `List`s; Python negative-index slices are modelled by
  `pyTakeLast` / `pyDropLastSlice`, which reproduce the `a[-m:]` / `a[:-m]`
  semantics including the `m = 0` corner case (`a[-0:] = a`, `a[:-0] = []`).
* Python dicts are association lists with first-occurrence lookup and
  in-place-replacing insertion (`dictGet` / `dictSet` / `pyUpdate`), mirroring
  `d[k]`, `d.get`, assignment and `dict.update`.
* External gateways (the LLM, the tokenizer, `str()` serialisation, the vector
  similarity ranking, clocks, id generation) are passed in as explicit
  parameters: the functions below are the source code's control flow over
  those oracles.
* Fallible Python code is `Except String`/`Option`; an uncaught exception is
  an `Except.error`.
-/

/-- The Python slice `xs[-m:]`.  For `m > 0` this is the final `min m xs.length`
elements; for `m = 0` it is the whole list (since `-0 = 0` in Python). -/
def pyTakeLast {α : Type} (xs : List α) (m : Nat) : List α :=
  if m = 0 then xs else xs.drop (xs.length - m)

/-- The Python slice `xs[:-m]`.  For `m > 0` this drops the final `m` elements
(empty if `m ≥ xs.length`); for `m = 0` it is the empty list `xs[:0]`. -/
def pyDropLastSlice {α : Type} (xs : List α) (m : Nat) : List α :=
  if m = 0 then [] else xs.take (xs.length - m)

theorem pyTakeLast_of_pos {α : Type} (xs : List α) (m : Nat) (h : m ≠ 0) :
    pyTakeLast xs m = xs.drop (xs.length - m) := by
  simp [pyTakeLast, h]

theorem pyDropLastSlice_eq_nil {α : Type} (xs : List α) (m : Nat)
    (h : xs.length ≤ m) : pyDropLastSlice xs m = [] := by
  unfold pyDropLastSlice
  split
  · rfl
  · simp [Nat.sub_eq_zero_of_le h]

theorem length_pyTakeLast_le {α : Type} (xs : List α) (m : Nat) (h : m ≠ 0) :
    (pyTakeLast xs m).length ≤ m := by
  rw [pyTakeLast_of_pos xs m h]
  simp [List.length_drop]
  omega

/-! ### Chat-history data model (`src/utils/chat_history_manager.py`) -/

/-- One entry of `self.chat_history`: a Python dict that may carry a `"user"`
key, an `"assistant"` key, or (for summarized pairs) both. `add_to_history`
appends single-key dicts; compaction inserts two-key dicts. -/
structure Turn where
  user : Option String
  assistant : Option String
deriving DecidableEq

/-- An element of the JSON value parsed from the summarization response, when
that value is a JSON array: either an object (whose optional `user` /
`assistant` fields model key presence, as checked by `'user' in pair`) or a
non-object. -/
inductive JItem where
  | obj (t : Turn)
  | nonObj
deriving DecidableEq

/-- The outcome of the `generate_content` call plus `json.loads` inside
`summarize_chat_history`: the gateway raised, the response was not valid JSON,
or it parsed to an object / an array / some other JSON value. -/
inductive LLMOutcome where
  | genFailure
  | notJson
  | jsonDict (t : Turn)
  | jsonList (l : List JItem)
  | jsonOther
deriving DecidableEq

/-- Validation `isinstance(pair, dict) and 'user' in pair and 'assistant' in pair`. -/
def validItem : JItem → Bool
  | .obj t => t.user.isSome && t.assistant.isSome
  | .nonObj => false

def itemTurn : JItem → Turn
  | .obj t => t
  | .nonObj => ⟨none, none⟩

/-- The parse/validation pipeline of `summarize_chat_history`: wrap a lone
dict into a one-element list, then accept only a list of dicts each holding
both `'user'` and `'assistant'`; every other outcome (gateway exception,
invalid JSON, wrong shape) yields `none`, which the `except` branch turns into
"no change". -/
def parsedPairs : LLMOutcome → Option (List Turn)
  | .genFailure => none
  | .notJson => none
  | .jsonOther => none
  | .jsonDict t => if t.user.isSome && t.assistant.isSome then some [t] else none
  | .jsonList l => if l.all validItem then some (l.map itemTurn) else none

/-- Embeds `ChatHistoryManager.summarize_chat_history(max_history_pairs)` acting on
`self.chat_history`.  `out` is the generation/parsing outcome.  The whole body
sits inside `try/except`, so the function never raises: every failure path
returns the history unchanged. -/
def summarize_chat_history (hist : List Turn) (k : Nat) (out : LLMOutcome) :
    List Turn :=
  let pairs_to_summarize := pyDropLastSlice hist (k * 2)
  if pairs_to_summarize.isEmpty then hist
  else
    match parsedPairs out with
    | some ps => ps ++ pyTakeLast hist (k * 2)
    | none => hist

/-- The in-memory and per-session durable state of a `ChatHistoryManager`.
`db` holds the session's `chat_history` rows (one row per question/answer
pair, in insertion = timestamp order); `summaries` holds the session's
`summary` rows in insertion order.  `user_present` models the truthiness of
`self.user_id` (an `Optional[int]` fixed at construction). -/
structure ChatState where
  user_present : Bool
  chat_history : List Turn
  pairs_since_last_summary : Nat
  db : List (String × String)
  summaries : List String
deriving DecidableEq

/-- The history after the append + truncate steps of `add_to_history` (the
state of `self.chat_history` at the point of the token-count check). -/
def truncate_after_append (hist : List Turn) (u a : String) (k : Nat) :
    List Turn :=
  let h1 := hist ++ [⟨some u, none⟩, ⟨none, some a⟩]
  if h1.length > k * 2 then pyTakeLast h1 (k * 2) else h1

/-- Embeds `ChatHistoryManager.add_to_history(user_message, assistant_response,
max_history_pairs)`.  `exceeds` models
`Utils.count_number_of_tokens(str(self.chat_history)) > self.max_tokens`
(an external tokenizer measurement) and `out` the summarization outcome used
if compaction is triggered.  `save_to_db` skips the insert when `user_id` is
falsy. -/
def add_to_history (s : ChatState) (u a : String) (k : Nat) (exceeds : Bool)
    (out : LLMOutcome) : ChatState :=
  let h2 := truncate_after_append s.chat_history u a k
  let db' := if s.user_present then s.db ++ [(u, a)] else s.db
  let h3 := if exceeds then summarize_chat_history h2 k out else h2
  { s with chat_history := h3, db := db',
           pairs_since_last_summary := s.pairs_since_last_summary + 1 }

/-- Variant of `add_to_history` with the token-triggered compaction step removed
(modelled from the claim's words, for the refinement comparison of C4). -/
def add_to_history_no_compact (s : ChatState) (u a : String) (k : Nat) :
    ChatState :=
  let h2 := truncate_after_append s.chat_history u a k
  let db' := if s.user_present then s.db ++ [(u, a)] else s.db
  { s with chat_history := h2, db := db',
           pairs_since_last_summary := s.pairs_since_last_summary + 1 }

/-- Embeds `ChatHistoryManager.get_latest_chat_pairs(num_pairs)`: the SQL query
selects the session's rows ordered by timestamp descending with
`LIMIT num_pairs * 2`, and the Python reverses the fetched rows.  `db` is the
session's rows in ascending timestamp order (timestamps are taken as strictly
increasing across inserts). -/
def get_latest_chat_pairs (db : List (String × String)) (num_pairs : Nat) :
    List (String × String) :=
  (db.reverse.take (num_pairs * 2)).reverse

/-- Embeds `ChatHistoryManager.get_latest_summary()`: latest `summary` row for the
session (max timestamp = last inserted), or `None`. -/
def get_latest_summary (s : ChatState) : Option String :=
  s.summaries.getLast?

/-- Embeds `ChatHistoryManager.update_chat_summary(max_history_pairs)`.  `gen`
models `generate_the_new_summary`'s result: `none` for a gateway exception
(which that helper catches, returning `None`), `some txt` for a returned
text; Python truthiness makes `some ""` behave like a failure.
`save_summary_to_db` skips the insert when `user_id` is falsy. -/
def update_chat_summary (s : ChatState) (k : Nat) (gen : Option String) :
    ChatState :=
  if s.pairs_since_last_summary < k then s
  else
    let chat_data := get_latest_chat_pairs s.db k
    if chat_data.length ≤ k then s
    else
      match gen with
      | none => s
      | some txt =>
        if txt = "" then s
        else
          { s with
            summaries := if s.user_present then s.summaries ++ [txt]
                         else s.summaries,
            pairs_since_last_summary := 0 }

/-! ### Keyword search (`src/utils/search_manager.py`) -/

/-- One `chat_history` row as fetched by the search query:
`(question, answer, timestamp)`. -/
structure Row where
  q : String
  a : String
  ts : String
deriving DecidableEq

/-- SQL `LIKE` matching of pattern `p` against text `t` (`%` matches any
sequence, `_` any single character, other characters literally; both sides
are already lower-cased by the caller). -/
def likeMatch (p t : List Char) : Bool :=
  match p, t with
  | [], [] => true
  | [], _ :: _ => false
  | '%' :: ps, [] => likeMatch ps []
  | '%' :: ps, c :: ts => likeMatch ps (c :: ts) || likeMatch ('%' :: ps) ts
  | '_' :: _, [] => false
  | '_' :: ps, _ :: ts => likeMatch ps ts
  | _ :: _, [] => false
  | ch :: ps, c :: ts => ch = c && likeMatch ps ts
termination_by (t.length, p.length)

/-- Matching `LOWER(field) LIKE '%term%'` with `term` already lower-cased in Python. -/
def sqlLikeContains (term text : String) : Bool :=
  likeMatch ('%' :: (term.data ++ ['%'])) text.data

/-- The WHERE clause of `search_chat_history`'s query on one row. -/
def rowMatches (term : String) (r : Row) : Bool :=
  sqlLikeContains term r.q.toLower || sqlLikeContains term r.a.toLower

/-- The result set of `search_chat_history`'s SQL query: matching rows in
ascending timestamp order (`db` is already in that order), capped at 3. -/
def searchMatches (db : List Row) (term : String) : List Row :=
  (db.filter (rowMatches term.toLower)).take 3

/-- The second component of `search_chat_history`'s return value: either the
raw `(question, answer, timestamp)` tuples or a message/summary string. -/
inductive SearchOut where
  | rows (rs : List Row)
  | text (s : String)
deriving DecidableEq

/-- Embeds `SearchManager.search_chat_history(search_term)`.  `serLen` models
`len(str(results))` (Python's serialisation of the fetched rows — an external
representation detail) and `gen` the `summarize_search_result` gateway call,
whose exception is caught by the surrounding `try` and turned into an
`("Function call failed.", "Error: ...")` pair. -/
def search_chat_history (db : List Row) (term : String) (maxChars : Nat)
    (serLen : List Row → Nat) (gen : Except String String) :
    String × SearchOut :=
  let results := searchMatches db term
  if results.isEmpty then
    ("Function call failed.",
      .text "No results found. Please try again with a different word.")
  else if serLen results > maxChars then
    match gen with
    | .ok s => ("Function call successful.", .text s)
    | .error e => ("Function call failed.", .text ("Error: " ++ e))
  else
    ("Function call successful.", .rows results)

/-! ### Tiered memory store (`src/plugins/memory.py`) -/

/-- A Python/JSON scalar value stored in memory metadata (floats are modelled
as rationals). -/
inductive PyVal where
  | str (s : String)
  | int (n : Int)
  | bool (b : Bool)
  | num (q : Rat)
deriving DecidableEq

/-- A Python dict: association list, first occurrence authoritative (Python
dicts never hold duplicate keys; all dicts built below keep that shape). -/
def PyDict : Type := List (String × PyVal)

instance : DecidableEq PyDict := by
  unfold PyDict
  infer_instance

/-- Lookup `d.get(k)` / `d[k]` (the latter raises on `none` at call sites that
model it). -/
def dictGet (d : PyDict) (k : String) : Option PyVal :=
  match d with
  | [] => none
  | (k1, v1) :: rest => if k1 = k then some v1 else dictGet rest k

/-- Assignment `d[k] = v`: replace the binding in place if present, else append. -/
def dictSet (d : PyDict) (k : String) (v : PyVal) : PyDict :=
  match d with
  | [] => [(k, v)]
  | (k1, v1) :: rest =>
    if k1 = k then (k, v) :: rest else (k1, v1) :: dictSet rest k v

/-- Merge semantics of `d.update(kvs)`. -/
def pyUpdate (d : PyDict) (kvs : List (String × PyVal)) : PyDict :=
  kvs.foldl (fun acc kv => dictSet acc kv.1 kv.2) d

/-- One record of the ChromaDB collection: `(id, document, metadata)`. -/
structure MemRec where
  id : String
  content : String
  meta : PyDict
deriving DecidableEq

/-- The ChromaDB collection (insertion order retained; ids unique in any
store Chroma actually produces). -/
structure MemStore where
  recs : List MemRec
deriving DecidableEq

/-- The record `collection.get(ids=[mid])` returns (first record with the
given id; Chroma ids are unique). -/
def findRec (recs : List MemRec) (mid : String) : Option MemRec :=
  match recs with
  | [] => none
  | r :: rest => if r.id = mid then some r else findRec rest mid

/-- Metadata of the record `collection.get(ids=[mid])` returns. -/
def metaOf (st : MemStore) (mid : String) : Option PyDict :=
  (findRec st.recs mid).map MemRec.meta

/-- Replace the metadata of the record with id `mid`
(`collection.update(ids=[mid], metadatas=[md])`). -/
def setMeta (st : MemStore) (mid : String) (md : PyDict) : MemStore :=
  ⟨st.recs.map (fun x => if x.id = mid then { x with meta := md } else x)⟩

/-- Embeds `AgenticMemorySystem.add_memory(content, memory_type, metadata)`.
`freshId` models `_generate_id(content)` (an md5 of content + wall-clock
time) and `now` models `datetime.now().isoformat()`; `metadata = None`
becomes the empty dict.  Returns the updated store and the returned id. -/
def add_memory (st : MemStore) (freshId : String) (content memory_type : String)
    (metadata : Option PyDict) (now : String) : MemStore × String :=
  let md0 := metadata.getD []
  let md := pyUpdate md0
    [("memory_type", .str memory_type), ("timestamp", .str now),
     ("access_count", .int 0)]
  (⟨st.recs ++ [⟨freshId, content, md⟩]⟩, freshId)

/-- The `Memory` dataclass as built from a fetched record
(`memory_type` / `timestamp` via `.get` with defaults). -/
structure MemoryView where
  id : String
  content : String
  memory_type : PyVal
  timestamp : PyVal
  metadata : PyDict
deriving DecidableEq

def viewOf (r : MemRec) : MemoryView :=
  ⟨r.id, r.content, (dictGet r.meta "memory_type").getD (.str "unknown"),
    (dictGet r.meta "timestamp").getD (.str ""), r.meta⟩

/-- Embeds `AgenticMemorySystem.get_memory(memory_id)`: a pure point read
(`collection.get`); absent id gives `None`, and no write is issued. -/
def get_memory (st : MemStore) (mid : String) : Option MemoryView :=
  (findRec st.recs mid).map viewOf

/-- Embeds `AgenticMemorySystem.update_memory(memory_id, updates)`: merge `updates`
into the current metadata, stamp `last_updated`, write back; `False` (store
unchanged) if the id is absent. -/
def update_memory (st : MemStore) (mid : String) (updates : PyDict)
    (now : String) : MemStore × Bool :=
  match metaOf st mid with
  | none => (st, false)
  | some m0 =>
    (setMeta st mid (dictSet (pyUpdate m0 updates) "last_updated" (.str now)),
      true)

/-- Computes `metadata.get('access_count', 0) + 1` under Python arithmetic: absent
counts as `0`, bools coerce to ints, floats stay floats, and a string raises
`TypeError`. -/
def incOne : Option PyVal → Option PyVal
  | none => some (.int 1)
  | some (.int n) => some (.int (n + 1))
  | some (.bool b) => some (.int ((if b then 1 else 0) + 1))
  | some (.num q) => some (.num (q + 1))
  | some (.str _) => none

/-- Embeds `AgenticMemorySystem._increment_access_count(memory_id)`: no-op when the
id is absent; otherwise rewrite the metadata with the bumped count.  There is
no `try` here, so a non-numeric stored count propagates a `TypeError`. -/
def increment_access_count (st : MemStore) (mid : String) :
    Except String MemStore :=
  match metaOf st mid with
  | none => .ok st
  | some m0 =>
    match incOne (dictGet m0 "access_count") with
    | none => .error "TypeError"
    | some v => .ok (setMeta st mid (dictSet m0 "access_count" v))

/-- The per-result increment loop of `search_memories`. -/
def incAll (st : MemStore) (ids : List String) : Except String MemStore :=
  match ids with
  | [] => .ok st
  | mid :: rest =>
    match increment_access_count st mid with
    | .error e => .error e
    | .ok st' => incAll st' rest

/-- Embeds `AgenticMemorySystem.search_memories(query, memory_types, limit)`.
`ranked` is the id list the ChromaDB similarity query returned (an external
ranking over records matching the `memory_type` filter, at most `limit` long,
without duplicates); the `Memory` objects are built from the query's snapshot
of the store, and each returned record's access count is incremented as a
side effect. -/
def search_memories (st : MemStore) (ranked : List String) :
    Except String (MemStore × List MemoryView) :=
  match incAll st ranked with
  | .error e => .error e
  | .ok st' =>
    .ok (st', ranked.filterMap (fun mid => (findRec st.recs mid).map viewOf))

/-- Membership test of the consolidation `where={"memory_type": "working"}`
filter. -/
def isWorking (r : MemRec) : Bool :=
  dictGet r.meta "memory_type" = some (.str "working")

/-- Outcome of `_reflect_on_memories`: `failed` covers a gateway exception or
invalid JSON (the bare `except` returns `[]`); `ok` carries the parsed JSON
array of insight objects (the shape the reflection prompt requests — other
JSON shapes crash the consolidation loop at subscripting and are not covered
by any claim's cases). -/
inductive ReflectOutcome where
  | failed
  | ok (insights : List PyDict)
deriving DecidableEq

/-- The insight list the consolidation loop iterates over: `[]` when the
reflection model is unavailable or reflection failed. -/
def effInsights (hasModel : Bool) (ro : ReflectOutcome) : List PyDict :=
  if hasModel then (match ro with | .failed => [] | .ok l => l) else []

/-- Does this insight's `'type'` select the fact/experience creation path? -/
def isFE (d : PyDict) : Bool :=
  decide (dictGet d "type" = some (.str "fact")) ||
    decide (dictGet d "type" = some (.str "experience"))

/-- An insight object the consolidation loop can process without raising:
it has a `'type'` key, and when that type is `fact`/`experience` it has a
string `'content'` (non-string documents are rejected by the vector store). -/
def insightOk (d : PyDict) : Bool :=
  match dictGet d "type" with
  | none => false
  | some tv =>
    if tv = .str "fact" ∨ tv = .str "experience" then
      match dictGet d "content" with
      | some (.str _) => true
      | _ => false
    else true

/-- The insight-processing loop of `consolidate_memories`: `fact` insights
become `semantic` memories, `experience` insights become `episodic` memories,
everything else (e.g. `pattern`) is skipped; created ids accumulate in order.
`insight['type']` / `insight['content']` raise `KeyError` when absent.
`idGen j` is the fresh id `_generate_id` produces for the `j`-th creation. -/
def process_insights (idGen : Nat → String) (now : String) (st : MemStore)
    (created : List String) (j : Nat) (l : List PyDict) :
    Except String (MemStore × List String × Nat) :=
  match l with
  | [] => .ok (st, created, j)
  | ins :: rest =>
    match dictGet ins "type" with
    | none => .error "KeyError"
    | some tv =>
      if tv = .str "fact" then
        match dictGet ins "content" with
        | none => .error "KeyError"
        | some (.str c) =>
          let res := add_memory st (idGen j) c "semantic"
            (some [("source", .str "consolidation"),
                   ("confidence", (dictGet ins "confidence").getD (.num (4/5)))])
            now
          process_insights idGen now res.1 (created ++ [res.2]) (j + 1) rest
        | some _ => .error "ValueError"
      else if tv = .str "experience" then
        match dictGet ins "content" with
        | none => .error "KeyError"
        | some (.str c) =>
          let res := add_memory st (idGen j) c "episodic"
            (some [("source", .str "consolidation"),
                   ("importance", (dictGet ins "importance").getD (.str "medium"))])
            now
          process_insights idGen now res.1 (created ++ [res.2]) (j + 1) rest
        | some _ => .error "ValueError"
      else process_insights idGen now st created j rest

/-- The archiving loop of `consolidate_memories`: for each original working
id, `update_memory(id, {'archived': True})` and bump the consolidated count
(the count is bumped whether or not the update reported success). -/
def archive_all (now : String) (st : MemStore) (n : Nat) (ids : List String) :
    MemStore × Nat :=
  match ids with
  | [] => (st, n)
  | mid :: rest =>
    let r := update_memory st mid [("archived", .bool true)] now
    archive_all now r.1 (n + 1) rest

/-- The dictionary `consolidate_memories` returns. -/
structure ConsResult where
  consolidated : Nat
  created : List String
deriving DecidableEq

/-- Embeds `AgenticMemorySystem.consolidate_memories()`.  `hasModel` is the
truthiness of `self.reflection_model`, `ro` the reflection outcome, `idGen`
the fresh-id source and `now` the wall clock.  Working memories are fetched
once up front; if there are none the zero result is returned immediately. -/
def consolidate_memories (store : MemStore) (hasModel : Bool)
    (ro : ReflectOutcome) (idGen : Nat → String) (now : String) :
    Except String (MemStore × ConsResult) :=
  let workingIds := (store.recs.filter isWorking).map MemRec.id
  if workingIds.isEmpty then .ok (store, ⟨0, []⟩)
  else
    match process_insights idGen now store [] 0 (effInsights hasModel ro) with
    | .error e => .error e
    | .ok (st1, created, _) =>
      let ar := archive_all now st1 0 workingIds
      .ok (ar.1, ⟨ar.2, created⟩)

/-! ### Helper lemmas -/

theorem dictGet_dictSet_self (d : PyDict) (k : String) (v : PyVal) :
    dictGet (dictSet d k v) k = some v := by
  induction d with
  | nil => simp [dictSet, dictGet]
  | cons hd rest ih =>
    obtain ⟨k1, v1⟩ := hd
    by_cases h : k1 = k
    · simp [dictSet, dictGet, h]
    · simp [dictSet, dictGet, h, ih]

theorem dictGet_dictSet_other (d : PyDict) (k k' : String) (v : PyVal)
    (h : k' ≠ k) : dictGet (dictSet d k v) k' = dictGet d k' := by
  induction d with
  | nil => simp [dictSet, dictGet, Ne.symm h]
  | cons hd rest ih =>
    obtain ⟨k1, v1⟩ := hd
    by_cases h1 : k1 = k
    · subst h1
      simp [dictSet, dictGet, Ne.symm h]
    · by_cases h2 : k1 = k'
      · simp [dictSet, dictGet, h1, h2, h]
      · simp [dictSet, dictGet, h1, h2, ih]

theorem pyUpdate_cons (d : PyDict) (kv : String × PyVal)
    (rest : List (String × PyVal)) :
    pyUpdate d (kv :: rest) = pyUpdate (dictSet d kv.1 kv.2) rest := rfl

theorem dictGet_pyUpdate_of_not_mem (kvs : List (String × PyVal))
    (d : PyDict) (k : String) (h : k ∉ kvs.map Prod.fst) :
    dictGet (pyUpdate d kvs) k = dictGet d k := by
  induction kvs generalizing d with
  | nil => rfl
  | cons kv rest ih =>
    simp only [List.map_cons, List.mem_cons] at h
    push_neg at h
    rw [pyUpdate_cons, ih _ h.2, dictGet_dictSet_other _ _ _ _ h.1]

theorem pyDropLastSlice_zero {α : Type} (xs : List α) :
    pyDropLastSlice xs 0 = [] := rfl

theorem summarize_of_nil_slice (hist : List Turn) (k : Nat) (out : LLMOutcome)
    (h : pyDropLastSlice hist (k * 2) = []) :
    summarize_chat_history hist k out = hist := by
  unfold summarize_chat_history
  simp [h]

theorem truncate_after_append_le (hist : List Turn) (u a : String) (k : Nat)
    (hk : 1 ≤ k) : (truncate_after_append hist u a k).length ≤ k * 2 := by
  simp only [truncate_after_append]
  split
  · rw [pyTakeLast_of_pos _ _ (by omega)]
    simp [List.length_drop]
    omega
  · omega

theorem truncate_slice_nil (hist : List Turn) (u a : String) (k : Nat) :
    pyDropLastSlice (truncate_after_append hist u a k) (k * 2) = [] := by
  rcases Nat.eq_zero_or_pos k with hk | hk
  · subst hk
    exact pyDropLastSlice_zero _
  · exact pyDropLastSlice_eq_nil _ _ (truncate_after_append_le hist u a k hk)

/-! ### Claims C1-C7: chat history manager and search -/

/-- Claim C1 counterexample: with `max_history_pairs = 0`, a single
`add_to_history` call leaves 2 turns in memory — more than
`2 × max_history_pairs = 0` — because the Python truncation slice
`self.chat_history[-0:]` keeps the whole list. -/
theorem add_to_history_unbounded_at_zero_pairs :
    2 * 0 <
      (add_to_history ⟨true, [], 0, [], []⟩ "hi" "there" 0 false
        LLMOutcome.genFailure).chat_history.length := by
  decide

/-- Claim C1 (amended: for `max_history_pairs = k ≥ 1`): after any
`add_to_history` call — from any prior state, including its truncation and
any compaction step — the rolling history has at most `2 * k` turns. -/
theorem add_to_history_bounded_window (s : ChatState) (u a : String) (k : Nat)
    (exceeds : Bool) (out : LLMOutcome) (hk : 1 ≤ k) :
    (add_to_history s u a k exceeds out).chat_history.length ≤ 2 * k := by
  have hsum := summarize_of_nil_slice (truncate_after_append s.chat_history u a k)
    k out (truncate_slice_nil s.chat_history u a k)
  have hlen := truncate_after_append_le s.chat_history u a k hk
  unfold add_to_history
  cases exceeds <;> simp [hsum] <;> omega

theorem add_to_history_bounded_window_witness :
    (add_to_history ⟨true, [], 0, [], []⟩ "hi" "there" 1 false
      LLMOutcome.genFailure).chat_history.length ≤ 2 * 1 :=
  add_to_history_bounded_window ⟨true, [], 0, [], []⟩ "hi" "there" 1 false
    LLMOutcome.genFailure (by decide)

/-- Claim C2: compaction preserves recency.  Either `summarize_chat_history`
leaves the history unchanged (no-op or failure), or — on success — the new
history is exactly the summarized pairs followed by the final `2 * k`
most-recently-added turns, unchanged (success requires the old history to be
longer than `2 * k`). -/
theorem summarize_chat_history_preserves_recency (hist : List Turn) (k : Nat)
    (out : LLMOutcome) :
    summarize_chat_history hist k out = hist ∨
    ∃ ps, parsedPairs out = some ps ∧ 2 * k < hist.length ∧
      summarize_chat_history hist k out =
        ps ++ hist.drop (hist.length - 2 * k) := by
  by_cases hemp : (pyDropLastSlice hist (k * 2)).isEmpty
  · left
    unfold summarize_chat_history
    simp [hemp]
  · have hk0 : k * 2 ≠ 0 := by
      intro h
      exact hemp (by simp [h, pyDropLastSlice_zero])
    have hlt : k * 2 < hist.length := by
      by_contra hle
      push_neg at hle
      exact hemp (by simp [pyDropLastSlice_eq_nil _ _ hle])
    cases hp : parsedPairs out with
    | none =>
      left
      unfold summarize_chat_history
      simp [hemp, hp]
    | some ps =>
      right
      refine ⟨ps, rfl, by omega, ?_⟩
      unfold summarize_chat_history
      simp only [hemp, Bool.false_eq_true, if_false, hp]
      rw [pyTakeLast_of_pos _ _ hk0]
      congr 2
      omega

/-- Claim C3: on every failing generation outcome (gateway exception,
invalid JSON, or a parsed value that is not a dict / list of dicts with both
`'user'` and `'assistant'` keys — exactly the outcomes with
`parsedPairs out = none`), compaction leaves the history unchanged; the
function is total, modelling that the `except` clause keeps any exception
from reaching the caller. -/
theorem summarize_chat_history_failure_atomic (hist : List Turn) (k : Nat)
    (out : LLMOutcome) (h : parsedPairs out = none) :
    summarize_chat_history hist k out = hist := by
  unfold summarize_chat_history
  simp [h]

theorem summarize_chat_history_failure_atomic_witness :
    summarize_chat_history
      [⟨some "a", none⟩, ⟨none, some "b"⟩, ⟨some "c", none⟩, ⟨none, some "d"⟩]
      1 LLMOutcome.notJson =
      [⟨some "a", none⟩, ⟨none, some "b"⟩, ⟨some "c", none⟩, ⟨none, some "d"⟩] :=
  summarize_chat_history_failure_atomic _ 1 LLMOutcome.notJson rfl

/-- Claim C4 counterexample: with `max_history_pairs = 0` the rolling history
at the token-count check has 2 entries, exceeding `2 × max_history_pairs = 0`
(the truncation slice `[-0:]` keeps everything), falsifying the claim's
"already has at most 2*max_history_pairs entries" clause. -/
theorem truncate_after_append_exceeds_at_zero_pairs :
    2 * 0 < (truncate_after_append [] "hi" "there" 0).length := by
  decide

/-- Claim C4 (amended): for every call, `pairs_to_summarize` is empty at the
token-count check, so the compaction step never modifies the history and
`add_to_history` is observationally equivalent to the same function with that
step removed; the "history already within `2 * k`" clause holds for `k ≥ 1`
(at `k = 0` the slice `[:-0] = []` is what keeps the path dead). -/
theorem add_to_history_compaction_dead_path (s : ChatState) (u a : String)
    (k : Nat) (exceeds : Bool) (out : LLMOutcome) :
    add_to_history s u a k exceeds out = add_to_history_no_compact s u a k ∧
    pyDropLastSlice (truncate_after_append s.chat_history u a k) (k * 2) = [] ∧
    (1 ≤ k → (truncate_after_append s.chat_history u a k).length ≤ 2 * k) := by
  have hnil := truncate_slice_nil s.chat_history u a k
  refine ⟨?_, hnil, fun hk => by have := truncate_after_append_le s.chat_history u a k hk; omega⟩
  unfold add_to_history add_to_history_no_compact
  cases exceeds <;>
    simp [summarize_of_nil_slice (truncate_after_append s.chat_history u a k) k out hnil]

theorem add_to_history_compaction_dead_path_witness :
    add_to_history ⟨true, [], 0, [], []⟩ "hi" "there" 1 true LLMOutcome.notJson =
      add_to_history_no_compact ⟨true, [], 0, [], []⟩ "hi" "there" 1 ∧
    (truncate_after_append ((⟨true, [], 0, [], []⟩ : ChatState).chat_history)
      "hi" "there" 1).length ≤ 2 * 1 :=
  ⟨(add_to_history_compaction_dead_path ⟨true, [], 0, [], []⟩ "hi" "there" 1
      true LLMOutcome.notJson).1,
   (add_to_history_compaction_dead_path ⟨true, [], 0, [], []⟩ "hi" "there" 1
      true LLMOutcome.notJson).2.2 (by decide)⟩

/-- Claim C5 counterexample: with two persisted pairs and `num_pairs = 1`,
`get_latest_chat_pairs` returns 2 pairs — more than `num_pairs` — because the
SQL `LIMIT num_pairs * 2` counts rows, and each row already holds a full
question/answer pair. -/
theorem get_latest_chat_pairs_exceeds_num_pairs :
    1 < (get_latest_chat_pairs [("q1", "a1"), ("q2", "a2")] 1).length := by
  decide

/-- Claim C5 (amended): `get_latest_chat_pairs(num_pairs)` returns the most
recent `min (2 * num_pairs) (total)` persisted pairs of the session, in
chronological order (a suffix of the chronologically ordered table); the
count is bounded by `2 * num_pairs`, not by `num_pairs`. -/
theorem get_latest_chat_pairs_recent_suffix (db : List (String × String))
    (n : Nat) :
    get_latest_chat_pairs db n <:+ db ∧
    (get_latest_chat_pairs db n).length = min (2 * n) db.length := by
  constructor
  · refine ⟨(db.reverse.drop (n * 2)).reverse, ?_⟩
    unfold get_latest_chat_pairs
    rw [← List.reverse_append, List.take_append_drop, List.reverse_reverse]
  · unfold get_latest_chat_pairs
    simp [List.length_take]
    omega

/-- Claim C6: when `pairs_since_last_summary < max_history_pairs` the call is
a strict no-op; otherwise either the whole state is unchanged (insufficient
fetched data, gateway failure, or falsy generated text) or a new Summary
record is appended and — in exactly that case — the counter is reset to 0.
Stated for a manager holding a user id, as at every construction site. -/
theorem update_chat_summary_cadence (s : ChatState) (k : Nat)
    (gen : Option String) (hu : s.user_present = true) :
    (s.pairs_since_last_summary < k → update_chat_summary s k gen = s) ∧
    (update_chat_summary s k gen = s ∨
      ∃ txt, txt ≠ "" ∧ gen = some txt ∧
        update_chat_summary s k gen =
          { s with summaries := s.summaries ++ [txt],
                   pairs_since_last_summary := 0 }) := by
  constructor
  · intro h
    unfold update_chat_summary
    simp [h]
  · by_cases h1 : s.pairs_since_last_summary < k
    · left
      unfold update_chat_summary
      simp [h1]
    · by_cases h2 : (get_latest_chat_pairs s.db k).length ≤ k
      · left
        unfold update_chat_summary
        simp [h1, h2]
      · cases gen with
        | none =>
          left
          unfold update_chat_summary
          simp [h1, h2]
        | some txt =>
          by_cases ht : txt = ""
          · left
            unfold update_chat_summary
            simp [h1, h2, ht]
          · right
            refine ⟨txt, ht, rfl, ?_⟩
            unfold update_chat_summary
            simp [h1, h2, ht, hu]

theorem update_chat_summary_cadence_witness :
    ((⟨true, [], 0, [("q1", "a1")], []⟩ : ChatState).pairs_since_last_summary < 1 →
      update_chat_summary ⟨true, [], 0, [("q1", "a1")], []⟩ 1 (some "sum") =
        ⟨true, [], 0, [("q1", "a1")], []⟩) ∧
    (update_chat_summary ⟨true, [], 0, [("q1", "a1")], []⟩ 1 (some "sum") =
        ⟨true, [], 0, [("q1", "a1")], []⟩ ∨
      ∃ txt, txt ≠ "" ∧ (some "sum" : Option String) = some txt ∧
        update_chat_summary ⟨true, [], 0, [("q1", "a1")], []⟩ 1 (some "sum") =
          { (⟨true, [], 0, [("q1", "a1")], []⟩ : ChatState) with
              summaries :=
                (⟨true, [], 0, [("q1", "a1")], []⟩ : ChatState).summaries ++ [txt],
              pairs_since_last_summary := 0 }) :=
  update_chat_summary_cadence ⟨true, [], 0, [("q1", "a1")], []⟩ 1 (some "sum") rfl

/-- Claim C7: search size-based branching.  A non-empty match set yields
`"Function call successful."` with the raw `(question, answer, timestamp)`
tuples when the serialized length is within `max_characters`, and with the
LLM summary when it exceeds it; an empty match set, or a summarization
exception, yields the `("Function call failed.", message)` pair instead of
raising. -/
theorem search_chat_history_branching (db : List Row) (term : String)
    (maxChars : Nat) (serLen : List Row → Nat) (gen : Except String String) :
    (searchMatches db term = [] ∧
      search_chat_history db term maxChars serLen gen =
        ("Function call failed.",
          .text "No results found. Please try again with a different word.")) ∨
    (searchMatches db term ≠ [] ∧ serLen (searchMatches db term) ≤ maxChars ∧
      search_chat_history db term maxChars serLen gen =
        ("Function call successful.", .rows (searchMatches db term))) ∨
    (searchMatches db term ≠ [] ∧ maxChars < serLen (searchMatches db term) ∧
      ((∃ txt, gen = .ok txt ∧
          search_chat_history db term maxChars serLen gen =
            ("Function call successful.", .text txt)) ∨
        (∃ e, gen = .error e ∧
          search_chat_history db term maxChars serLen gen =
            ("Function call failed.", .text ("Error: " ++ e))))) := by
  by_cases hm : searchMatches db term = []
  · left
    refine ⟨hm, ?_⟩
    unfold search_chat_history
    simp [hm]
  · have hie : (searchMatches db term).isEmpty = false := by
      cases hsm : searchMatches db term with
      | nil => exact absurd hsm hm
      | cons x xs => rfl
    by_cases hs : serLen (searchMatches db term) ≤ maxChars
    · right; left
      refine ⟨hm, hs, ?_⟩
      unfold search_chat_history
      simp [hie]
      omega
    · right; right
      refine ⟨hm, by omega, ?_⟩
      cases gen with
      | ok txt =>
        left
        refine ⟨txt, rfl, ?_⟩
        unfold search_chat_history
        simp [hie]
        omega
      | error e =>
        right
        refine ⟨e, rfl, ?_⟩
        unfold search_chat_history
        simp [hie]
        omega

/-! ### Metadata stamping lemmas (`add_memory`) -/

theorem stamp_unfold (md0 : PyDict) (mt now : String) :
    pyUpdate md0 [("memory_type", .str mt), ("timestamp", .str now),
      ("access_count", .int 0)] =
    dictSet (dictSet (dictSet md0 "memory_type" (.str mt)) "timestamp"
      (.str now)) "access_count" (.int 0) := rfl

theorem stamp_memory_type (md0 : PyDict) (mt now : String) :
    dictGet (pyUpdate md0 [("memory_type", .str mt), ("timestamp", .str now),
      ("access_count", .int 0)]) "memory_type" = some (.str mt) := by
  rw [stamp_unfold,
    dictGet_dictSet_other _ _ _ _ (by decide),
    dictGet_dictSet_other _ _ _ _ (by decide),
    dictGet_dictSet_self]

theorem stamp_timestamp (md0 : PyDict) (mt now : String) :
    dictGet (pyUpdate md0 [("memory_type", .str mt), ("timestamp", .str now),
      ("access_count", .int 0)]) "timestamp" = some (.str now) := by
  rw [stamp_unfold,
    dictGet_dictSet_other _ _ _ _ (by decide),
    dictGet_dictSet_self]

theorem stamp_access_count (md0 : PyDict) (mt now : String) :
    dictGet (pyUpdate md0 [("memory_type", .str mt), ("timestamp", .str now),
      ("access_count", .int 0)]) "access_count" = some (.int 0) := by
  rw [stamp_unfold, dictGet_dictSet_self]

theorem stamp_other (md0 : PyDict) (mt now : String) (key : String)
    (h1 : key ≠ "memory_type") (h2 : key ≠ "timestamp")
    (h3 : key ≠ "access_count") :
    dictGet (pyUpdate md0 [("memory_type", .str mt), ("timestamp", .str now),
      ("access_count", .int 0)]) key = dictGet md0 key := by
  apply dictGet_pyUpdate_of_not_mem
  simp [h1, h2, h3]

/-- Claim C10: `add_memory` appends exactly one record, returns its generated
id, and stamps the stored metadata with the `memory_type` argument, the fresh
timestamp and `access_count = 0` — overriding any values the caller supplied
for those three keys — while every other caller-supplied metadata entry is
stored unchanged (`metadata=None` behaves as the empty dict). -/
theorem add_memory_metadata_stamping (st : MemStore)
    (freshId content mtype : String) (metadata : Option PyDict) (now : String)
    (key : String) (h1 : key ≠ "memory_type") (h2 : key ≠ "timestamp")
    (h3 : key ≠ "access_count") :
    (add_memory st freshId content mtype metadata now).2 = freshId ∧
    ∃ md,
      (add_memory st freshId content mtype metadata now).1.recs =
        st.recs ++ [⟨freshId, content, md⟩] ∧
      dictGet md "memory_type" = some (.str mtype) ∧
      dictGet md "timestamp" = some (.str now) ∧
      dictGet md "access_count" = some (.int 0) ∧
      dictGet md key = dictGet (metadata.getD []) key := by
  exact ⟨rfl, _, rfl, stamp_memory_type _ _ _, stamp_timestamp _ _ _,
    stamp_access_count _ _ _, stamp_other _ _ _ _ h1 h2 h3⟩

theorem add_memory_metadata_stamping_witness :
    (add_memory ⟨[]⟩ "id1" "likes tea" "semantic"
      (some [("memory_type", PyVal.str "EVIL"), ("note", PyVal.str "keep")])
      "2026-01-01").2 = "id1" ∧
    ∃ md,
      (add_memory ⟨[]⟩ "id1" "likes tea" "semantic"
        (some [("memory_type", PyVal.str "EVIL"), ("note", PyVal.str "keep")])
        "2026-01-01").1.recs =
        ([] : List MemRec) ++ [⟨"id1", "likes tea", md⟩] ∧
      dictGet md "memory_type" = some (.str "semantic") ∧
      dictGet md "timestamp" = some (.str "2026-01-01") ∧
      dictGet md "access_count" = some (.int 0) ∧
      dictGet md "note" =
        dictGet ((some [("memory_type", PyVal.str "EVIL"),
          ("note", PyVal.str "keep")] : Option PyDict).getD []) "note" :=
  add_memory_metadata_stamping ⟨[]⟩ "id1" "likes tea" "semantic"
    (some [("memory_type", PyVal.str "EVIL"), ("note", PyVal.str "keep")])
    "2026-01-01" "note" (by decide) (by decide) (by decide)

/-! ### Store lookup/update lemmas (`src/plugins/memory.py`) -/

/-- `access_count` as stored for a given memory id. -/
def stored_access_count (st : MemStore) (mid : String) : Option PyVal :=
  (metaOf st mid).bind (fun m => dictGet m "access_count")

/-- Every stored `access_count` is something Python can add `1` to (absent,
int, bool or float — anything but a string).  Every store the system itself
builds satisfies this: `add_memory` stamps `access_count = 0` and increments
keep it numeric. -/
def countsOk (st : MemStore) : Bool :=
  st.recs.all (fun r =>
    match dictGet r.meta "access_count" with
    | some (.str _) => false
    | _ => true)

theorem findRec_eq_some (recs : List MemRec) (mid : String) (r : MemRec)
    (h : findRec recs mid = some r) : r ∈ recs ∧ r.id = mid := by
  induction recs with
  | nil => simp [findRec] at h
  | cons x rest ih =>
    by_cases hx : x.id = mid
    · simp [findRec, hx] at h
      subst h
      exact ⟨List.mem_cons_self x rest, hx⟩
    · simp [findRec, hx] at h
      exact ⟨List.mem_cons_of_mem x (ih h).1, (ih h).2⟩

theorem findRec_of_mem_ids (recs : List MemRec) (mid : String)
    (h : mid ∈ recs.map MemRec.id) : ∃ r, findRec recs mid = some r := by
  induction recs with
  | nil => simp at h
  | cons x rest ih =>
    by_cases hx : x.id = mid
    · exact ⟨x, by simp [findRec, hx]⟩
    · simp only [List.map_cons, List.mem_cons] at h
      rcases h with h | h
      · exact absurd h.symm hx
      · obtain ⟨r, hr⟩ := ih h
        exact ⟨r, by simp [findRec, hx, hr]⟩

theorem findRec_setMeta_self (recs : List MemRec) (mid : String)
    (md : PyDict) :
    findRec (recs.map (fun x => if x.id = mid then { x with meta := md }
        else x)) mid =
      (findRec recs mid).map (fun r => { r with meta := md }) := by
  induction recs with
  | nil => rfl
  | cons x rest ih =>
    by_cases hx : x.id = mid
    · simp [findRec, hx]
    · simp [findRec, hx, ih]

theorem findRec_setMeta_other (recs : List MemRec) (mid mid' : String)
    (md : PyDict) (h : mid' ≠ mid) :
    findRec (recs.map (fun x => if x.id = mid then { x with meta := md }
        else x)) mid' =
      findRec recs mid' := by
  induction recs with
  | nil => rfl
  | cons x rest ih =>
    by_cases hx : x.id = mid
    · have hx' : x.id ≠ mid' := by rw [hx]; exact Ne.symm h
      simp [findRec, hx, hx', Ne.symm h, ih]
    · by_cases hx' : x.id = mid'
      · simp [findRec, hx, hx', h, ih]
      · simp [findRec, hx, hx', ih]

theorem setMeta_ids (st : MemStore) (mid : String) (md : PyDict) :
    (setMeta st mid md).recs.map MemRec.id = st.recs.map MemRec.id := by
  obtain ⟨recs⟩ := st
  simp only [setMeta]
  induction recs with
  | nil => rfl
  | cons x rest ih =>
    by_cases hx : x.id = mid <;> simp_all

theorem update_memory_ids (st : MemStore) (mid : String) (u : PyDict)
    (now : String) :
    (update_memory st mid u now).1.recs.map MemRec.id =
      st.recs.map MemRec.id := by
  unfold update_memory
  cases h : metaOf st mid
  · rfl
  · simp [setMeta_ids]

/-- Part of Claim C9: `update_memory` whose update payload does not mention
`access_count` changes no memory's stored access count. -/
theorem stored_access_count_update_memory (st : MemStore) (mid mid3 : String)
    (u : PyDict) (now : String) (hu : "access_count" ∉ u.map Prod.fst) :
    stored_access_count (update_memory st mid u now).1 mid3 =
      stored_access_count st mid3 := by
  unfold update_memory
  cases hm : metaOf st mid with
  | none => rfl
  | some m0 =>
    by_cases h3 : mid3 = mid
    · subst h3
      unfold stored_access_count metaOf
      unfold metaOf at hm
      simp only [setMeta, findRec_setMeta_self]
      cases hf : findRec st.recs mid3 with
      | none => rw [hf] at hm; simp at hm
      | some r =>
        rw [hf] at hm
        simp only [Option.map_some'] at hm
        have hmeta : r.meta = m0 := Option.some.inj hm
        simp only [Option.map_some', Option.some_bind]
        rw [dictGet_dictSet_other _ _ _ _ (by decide),
          dictGet_pyUpdate_of_not_mem _ _ _ hu, hmeta]
    · unfold stored_access_count metaOf
      simp only [setMeta, findRec_setMeta_other _ _ _ _ h3]

theorem stored_access_count_eq (st : MemStore) (mid : String) (r : MemRec)
    (hf : findRec st.recs mid = some r) :
    stored_access_count st mid = dictGet r.meta "access_count" := by
  unfold stored_access_count metaOf
  rw [hf]
  rfl

theorem countsOk_not_str (st : MemStore) (r : MemRec) (hr : r ∈ st.recs)
    (h : countsOk st = true) (s : String) :
    dictGet r.meta "access_count" ≠ some (.str s) := by
  intro hs
  have hp := (List.all_eq_true.mp h) r hr
  rw [hs] at hp
  simp at hp

theorem increment_access_count_ok (st : MemStore) (mid : String)
    (h : countsOk st = true) :
    ∃ st', increment_access_count st mid = .ok st' ∧ countsOk st' = true ∧
      (∀ mid', mid' ≠ mid →
        stored_access_count st' mid' = stored_access_count st mid') ∧
      (∀ k : Int, stored_access_count st mid = some (.int k) →
        stored_access_count st' mid = some (.int (k + 1))) := by
  cases hf : findRec st.recs mid with
  | none =>
    refine ⟨st, ?_, h, fun _ _ => rfl, fun k hk => ?_⟩
    · unfold increment_access_count metaOf
      rw [hf]
      rfl
    · rw [stored_access_count] at hk
      unfold metaOf at hk
      rw [hf] at hk
      simp at hk
  | some r =>
    have hrmem : r ∈ st.recs := (findRec_eq_some _ _ _ hf).1
    have hm0 : metaOf st mid = some r.meta := by
      unfold metaOf
      rw [hf]
      rfl
    have hsc : stored_access_count st mid = dictGet r.meta "access_count" :=
      stored_access_count_eq st mid r hf
    have hinc : ∃ v, incOne (dictGet r.meta "access_count") = some v ∧
        (∀ s, v ≠ .str s) ∧
        (∀ k : Int, dictGet r.meta "access_count" = some (.int k) →
          v = .int (k + 1)) := by
      cases hg : dictGet r.meta "access_count" with
      | none => exact ⟨.int 1, rfl, by simp, by simp⟩
      | some pv =>
        cases pv with
        | str s => exact absurd hg (countsOk_not_str st r hrmem h s)
        | int n =>
          exact ⟨.int (n + 1), rfl, by simp, fun k hk => by
            simp only [Option.some.injEq, PyVal.int.injEq] at hk
            rw [hk]⟩
        | bool b => exact ⟨.int ((if b then 1 else 0) + 1), rfl, by simp, by simp⟩
        | num q => exact ⟨.num (q + 1), rfl, by simp, by simp⟩
    obtain ⟨v, hv, hvstr, hvint⟩ := hinc
    refine ⟨setMeta st mid (dictSet r.meta "access_count" v), ?_, ?_, ?_, ?_⟩
    · unfold increment_access_count
      rw [hm0]
      simp only [hv]
    · -- countsOk preserved
      rw [countsOk] at h ⊢
      simp only [setMeta, List.all_map, List.all_eq_true] at *
      intro x hx
      simp only [Function.comp_apply]
      by_cases hxid : x.id = mid
      · rw [if_pos hxid]
        show (match dictGet (dictSet r.meta "access_count" v) "access_count" with
          | some (PyVal.str _) => false
          | _ => true) = true
        rw [dictGet_dictSet_self]
        cases v with
        | str s => exact absurd rfl (hvstr s)
        | int n => rfl
        | bool b => rfl
        | num q => rfl
      · rw [if_neg hxid]
        exact h x hx
    · intro mid' hne
      unfold stored_access_count metaOf
      simp only [setMeta, findRec_setMeta_other _ _ _ _ hne]
    · intro k hk
      unfold stored_access_count metaOf
      simp only [setMeta, findRec_setMeta_self, hf, Option.map_some',
        Option.some_bind]
      rw [hsc] at hk
      show dictGet (dictSet r.meta "access_count" v) "access_count" =
        some (PyVal.int (k + 1))
      rw [dictGet_dictSet_self, hvint k hk]

theorem incAll_ok (ranked : List String) :
    ∀ st : MemStore, countsOk st = true → ranked.Nodup →
    ∃ st', incAll st ranked = .ok st' ∧ countsOk st' = true ∧
      (∀ mid, mid ∉ ranked →
        stored_access_count st' mid = stored_access_count st mid) ∧
      (∀ mid (k : Int), mid ∈ ranked →
        stored_access_count st mid = some (.int k) →
        stored_access_count st' mid = some (.int (k + 1))) := by
  induction ranked with
  | nil =>
    intro st h _
    exact ⟨st, rfl, h, fun _ _ => rfl, fun mid k hmem => by simp at hmem⟩
  | cons mid0 rest ih =>
    intro st h hnd
    rw [List.nodup_cons] at hnd
    obtain ⟨st1, h1ok, h1c, h1other, h1self⟩ :=
      increment_access_count_ok st mid0 h
    obtain ⟨st2, h2ok, h2c, h2other, h2self⟩ := ih st1 h1c hnd.2
    refine ⟨st2, ?_, h2c, ?_, ?_⟩
    · unfold incAll
      rw [h1ok]
      exact h2ok
    · intro mid hmem
      simp only [List.mem_cons, not_or] at hmem
      rw [h2other mid hmem.2, h1other mid hmem.1]
    · intro mid k hmem hk
      rcases List.mem_cons.mp hmem with heq | hmem'
      · subst heq
        rw [h2other mid hnd.1, h1self k hk]
      · have hne : mid ≠ mid0 := by
          intro he
          exact hnd.1 (he ▸ hmem')
        rw [h2self mid k hmem' (by rw [h1other mid hne]; exact hk)]

/-- Claim C9: access-count monotonicity.  A `search_memories` call whose
ranked result includes memory `mid` succeeds and increments that memory's
stored `access_count` by exactly 1 (and `mid` appears in the returned list);
and `update_memory` with a payload not mentioning `access_count` (as well as
`get_memory`, a pure read issuing no write) changes no memory's access count.
Stated for stores whose stored counts are numeric, which every store built by
this system is (`add_memory` stamps 0; increments keep numbers numeric). -/
theorem search_memories_access_count (st : MemStore) (ranked : List String)
    (mid mid2 mid3 : String) (k : Int) (updates : PyDict) (now : String)
    (hnd : ranked.Nodup) (hco : countsOk st = true)
    (hk : stored_access_count st mid = some (.int k)) (hmem : mid ∈ ranked)
    (hupd : "access_count" ∉ updates.map Prod.fst) :
    (∃ st' mems, search_memories st ranked = .ok (st', mems) ∧
      stored_access_count st' mid = some (.int (k + 1)) ∧
      ∃ m ∈ mems, m.id = mid) ∧
    stored_access_count (update_memory st mid2 updates now).1 mid3 =
      stored_access_count st mid3 := by
  constructor
  · obtain ⟨st', hok, _, _, hself⟩ := incAll_ok ranked st hco hnd
    refine ⟨st', ranked.filterMap (fun m => (findRec st.recs m).map viewOf),
      ?_, hself mid k hmem hk, ?_⟩
    · unfold search_memories
      rw [hok]
    · have hr : ∃ r, findRec st.recs mid = some r := by
        unfold stored_access_count metaOf at hk
        cases hfr : findRec st.recs mid with
        | none => rw [hfr] at hk; simp at hk
        | some r => exact ⟨r, rfl⟩
      obtain ⟨r, hr⟩ := hr
      refine ⟨viewOf r, List.mem_filterMap.mpr ⟨mid, hmem, by rw [hr]; rfl⟩, ?_⟩
      exact (findRec_eq_some _ _ _ hr).2
  · exact stored_access_count_update_memory st mid2 mid3 updates now hupd

theorem search_memories_access_count_witness :
    (∃ st' mems,
      search_memories
          ⟨[⟨"m1", "likes tea",
              [("memory_type", PyVal.str "semantic"),
               ("access_count", PyVal.int 2)]⟩]⟩ ["m1"] = .ok (st', mems) ∧
      stored_access_count st' "m1" = some (.int (2 + 1)) ∧
      ∃ m ∈ mems, m.id = "m1") ∧
    stored_access_count
        (update_memory
          ⟨[⟨"m1", "likes tea",
              [("memory_type", PyVal.str "semantic"),
               ("access_count", PyVal.int 2)]⟩]⟩ "m1"
          [("note", PyVal.str "x")] "t").1 "m1" =
      stored_access_count
        ⟨[⟨"m1", "likes tea",
            [("memory_type", PyVal.str "semantic"),
             ("access_count", PyVal.int 2)]⟩]⟩ "m1" :=
  search_memories_access_count
    ⟨[⟨"m1", "likes tea",
        [("memory_type", PyVal.str "semantic"),
         ("access_count", PyVal.int 2)]⟩]⟩ ["m1"] "m1" "m1" "m1" 2
    [("note", PyVal.str "x")] "t" (by decide) (by decide) (by decide)
    (by decide) (by decide)

/-! ### Consolidation lemmas -/

/-- The number of insights taking the fact/experience creation path. -/
def countFE (l : List PyDict) : Nat := l.countP isFE


/-- The metadata `consolidate_memories` stores for a `fact` insight. -/
def consolidationFactMeta (ins : PyDict) (now : String) : PyDict :=
  pyUpdate [("source", PyVal.str "consolidation"),
      ("confidence", (dictGet ins "confidence").getD (PyVal.num (4/5)))]
    [("memory_type", PyVal.str "semantic"), ("timestamp", PyVal.str now),
     ("access_count", PyVal.int 0)]

/-- The metadata `consolidate_memories` stores for an `experience` insight. -/
def consolidationExpMeta (ins : PyDict) (now : String) : PyDict :=
  pyUpdate [("source", PyVal.str "consolidation"),
      ("importance", (dictGet ins "importance").getD (PyVal.str "medium"))]
    [("memory_type", PyVal.str "episodic"), ("timestamp", PyVal.str now),
     ("access_count", PyVal.int 0)]

theorem process_insights_ok (idGen : Nat → String) (now : String) :
    ∀ (l : List PyDict) (st : MemStore) (created : List String) (j : Nat),
      l.all insightOk = true →
      ∃ newRecs : List MemRec,
        process_insights idGen now st created j l =
          .ok (⟨st.recs ++ newRecs⟩, created ++ newRecs.map MemRec.id,
            j + newRecs.length) ∧
        newRecs.length = countFE l ∧
        ∀ r ∈ newRecs,
          (dictGet r.meta "memory_type" = some (.str "semantic") ∨
            dictGet r.meta "memory_type" = some (.str "episodic")) ∧
          ∃ i, j ≤ i ∧ i < j + countFE l ∧ r.id = idGen i := by
  intro l
  induction l with
  | nil =>
    intro st created j _
    refine ⟨[], by simp [process_insights], rfl, by simp⟩
  | cons ins rest ih =>
    intro st created j hall
    rw [List.all_cons, Bool.and_eq_true] at hall
    obtain ⟨hok, hrest⟩ := hall
    cases htv : dictGet ins "type" with
    | none =>
      unfold insightOk at hok
      rw [htv] at hok
      simp at hok
    | some tv =>
      by_cases hfact : tv = PyVal.str "fact"
      · subst hfact
        have hcontent : ∃ c, dictGet ins "content" = some (PyVal.str c) := by
          cases hc : dictGet ins "content" with
          | none =>
            exfalso
            unfold insightOk at hok
            rw [htv, hc] at hok
            simp at hok
          | some pv =>
            cases pv with
            | str c => exact ⟨c, rfl⟩
            | int n =>
              exfalso
              unfold insightOk at hok
              rw [htv, hc] at hok
              simp at hok
            | bool b =>
              exfalso
              unfold insightOk at hok
              rw [htv, hc] at hok
              simp at hok
            | num q =>
              exfalso
              unfold insightOk at hok
              rw [htv, hc] at hok
              simp at hok
        obtain ⟨c, hc⟩ := hcontent
        have hFE : isFE ins = true := by simp [isFE, htv]
        have hcount : countFE (ins :: rest) = countFE rest + 1 := by
          simp [countFE, List.countP_cons, hFE]
        obtain ⟨nr, hproc, hlen, hprops⟩ := ih
          (⟨st.recs ++ [⟨idGen j, c, consolidationFactMeta ins now⟩]⟩ : MemStore)
          (created ++ [idGen j]) (j + 1) hrest
        have hstep : process_insights idGen now st created j (ins :: rest) =
            process_insights idGen now
              (⟨st.recs ++ [⟨idGen j, c, consolidationFactMeta ins now⟩]⟩ : MemStore)
              (created ++ [idGen j]) (j + 1) rest := by
          rw [process_insights.eq_def]
          dsimp only
          rw [htv, hc]
          rfl
        refine ⟨⟨idGen j, c, consolidationFactMeta ins now⟩ :: nr, ?_,
          by simp [hlen, hcount], ?_⟩
        · rw [hstep, hproc]
          simp only [List.map_cons, List.length_cons, List.cons_append,
            List.append_assoc, List.singleton_append]
          refine congrArg Except.ok ?_
          refine Prod.ext ?_ (Prod.ext ?_ ?_) <;> (simp; try omega)
        · intro r hr
          rcases List.mem_cons.mp hr with heq | hmem'
          · subst heq
            exact ⟨Or.inl (stamp_memory_type _ _ _),
              j, le_refl j, by rw [hcount]; omega, rfl⟩
          · obtain ⟨hty, i, hi1, hi2, hi3⟩ := hprops r hmem'
            exact ⟨hty, i, by omega, by rw [hcount]; omega, hi3⟩
      · by_cases hexp : tv = PyVal.str "experience"
        · subst hexp
          have hcontent : ∃ c, dictGet ins "content" = some (PyVal.str c) := by
            cases hc : dictGet ins "content" with
            | none =>
              exfalso
              unfold insightOk at hok
              rw [htv, hc] at hok
              simp at hok
            | some pv =>
              cases pv with
              | str c => exact ⟨c, rfl⟩
              | int n =>
                exfalso
                unfold insightOk at hok
                rw [htv, hc] at hok
                simp at hok
              | bool b =>
                exfalso
                unfold insightOk at hok
                rw [htv, hc] at hok
                simp at hok
              | num q =>
                exfalso
                unfold insightOk at hok
                rw [htv, hc] at hok
                simp at hok
          obtain ⟨c, hc⟩ := hcontent
          have hFE : isFE ins = true := by simp [isFE, htv]
          have hcount : countFE (ins :: rest) = countFE rest + 1 := by
            simp [countFE, List.countP_cons, hFE]
          obtain ⟨nr, hproc, hlen, hprops⟩ := ih
            (⟨st.recs ++ [⟨idGen j, c, consolidationExpMeta ins now⟩]⟩ : MemStore)
            (created ++ [idGen j]) (j + 1) hrest
          have hstep : process_insights idGen now st created j (ins :: rest) =
              process_insights idGen now
                (⟨st.recs ++ [⟨idGen j, c, consolidationExpMeta ins now⟩]⟩ : MemStore)
                (created ++ [idGen j]) (j + 1) rest := by
            rw [process_insights.eq_def]
            dsimp only
            rw [htv, hc]
            rfl
          refine ⟨⟨idGen j, c, consolidationExpMeta ins now⟩ :: nr, ?_,
            by simp [hlen, hcount], ?_⟩
          · rw [hstep, hproc]
            simp only [List.map_cons, List.length_cons, List.cons_append,
              List.append_assoc, List.singleton_append]
            refine congrArg Except.ok ?_
            refine Prod.ext ?_ (Prod.ext ?_ ?_) <;> (simp; try omega)
          · intro r hr
            rcases List.mem_cons.mp hr with heq | hmem'
            · subst heq
              exact ⟨Or.inr (stamp_memory_type _ _ _),
                j, le_refl j, by rw [hcount]; omega, rfl⟩
            · obtain ⟨hty, i, hi1, hi2, hi3⟩ := hprops r hmem'
              exact ⟨hty, i, by omega, by rw [hcount]; omega, hi3⟩
        · have hFE : isFE ins = false := by
            simp [isFE, htv, hfact, hexp]
          have hcount : countFE (ins :: rest) = countFE rest := by
            simp [countFE, List.countP_cons, hFE]
          obtain ⟨nr, hproc, hlen, hprops⟩ := ih st created j hrest
          have hstep : process_insights idGen now st created j (ins :: rest) =
              process_insights idGen now st created j rest := by
            rw [process_insights.eq_def]
            dsimp only
            rw [htv]
            dsimp only
            rw [if_neg hfact, if_neg hexp]
          refine ⟨nr, by rw [hstep, hproc], by rw [hlen, hcount], ?_⟩
          intro r hr
          obtain ⟨hty, i, hi1, hi2, hi3⟩ := hprops r hr
          exact ⟨hty, i, hi1, by rw [hcount]; omega, hi3⟩

theorem update_memory_sets_archived (st : MemStore) (mid : String)
    (now : String) (hmem : mid ∈ st.recs.map MemRec.id) :
    ∃ r' ∈ ((update_memory st mid [("archived", PyVal.bool true)] now).1).recs,
      r'.id = mid ∧ dictGet r'.meta "archived" = some (.bool true) := by
  obtain ⟨r, hf⟩ := findRec_of_mem_ids st.recs mid hmem
  have hm0 : metaOf st mid = some r.meta := by
    unfold metaOf
    rw [hf]
    rfl
  have hrmem := (findRec_eq_some _ _ _ hf).1
  have hrid := (findRec_eq_some _ _ _ hf).2
  unfold update_memory
  rw [hm0]
  refine ⟨{ r with meta := dictSet (pyUpdate r.meta [("archived", PyVal.bool true)]) "last_updated" (.str now) }, ?_, hrid, ?_⟩
  · show _ ∈ (setMeta st mid _).recs
    unfold setMeta
    exact List.mem_map.mpr ⟨r, hrmem, by rw [if_pos hrid]⟩
  · show dictGet (dictSet (pyUpdate r.meta [("archived", PyVal.bool true)]) "last_updated" (.str now)) "archived" = some (.bool true)
    rw [dictGet_dictSet_other _ _ _ _ (by decide)]
    rw [show pyUpdate r.meta [("archived", PyVal.bool true)] = dictSet r.meta "archived" (PyVal.bool true) from rfl]
    exact dictGet_dictSet_self _ _ _

theorem update_memory_keeps_archived (st : MemStore) (mid0 : String)
    (now : String) (mid : String)
    (h : ∃ r ∈ st.recs, r.id = mid ∧
      dictGet r.meta "archived" = some (.bool true)) :
    ∃ r' ∈ ((update_memory st mid0 [("archived", PyVal.bool true)] now).1).recs,
      r'.id = mid ∧ dictGet r'.meta "archived" = some (.bool true) := by
  obtain ⟨r, hr, hid, harch⟩ := h
  unfold update_memory
  cases hm : metaOf st mid0 with
  | none => exact ⟨r, hr, hid, harch⟩
  | some m0 =>
    by_cases hrid0 : r.id = mid0
    · refine ⟨{ r with meta := dictSet (pyUpdate m0 [("archived", PyVal.bool true)]) "last_updated" (.str now) }, ?_, hid, ?_⟩
      · show _ ∈ (setMeta st mid0 _).recs
        unfold setMeta
        exact List.mem_map.mpr ⟨r, hr, by rw [if_pos hrid0]⟩
      · show dictGet (dictSet (pyUpdate m0 [("archived", PyVal.bool true)]) "last_updated" (.str now)) "archived" = some (.bool true)
        rw [dictGet_dictSet_other _ _ _ _ (by decide)]
        rw [show pyUpdate m0 [("archived", PyVal.bool true)] = dictSet m0 "archived" (PyVal.bool true) from rfl]
        exact dictGet_dictSet_self _ _ _
    · refine ⟨r, ?_, hid, harch⟩
      show _ ∈ (setMeta st mid0 _).recs
      unfold setMeta
      exact List.mem_map.mpr ⟨r, hr, by rw [if_neg hrid0]⟩

theorem archive_all_keeps_archived (now : String) :
    ∀ (ids : List String) (st : MemStore) (n : Nat) (mid : String),
      (∃ r ∈ st.recs, r.id = mid ∧
        dictGet r.meta "archived" = some (.bool true)) →
      ∃ r' ∈ ((archive_all now st n ids).1).recs,
        r'.id = mid ∧ dictGet r'.meta "archived" = some (.bool true) := by
  intro ids
  induction ids with
  | nil => intro st n mid h; exact h
  | cons mid0 rest ih =>
    intro st n mid h
    exact ih _ (n + 1) mid (update_memory_keeps_archived st mid0 now mid h)

theorem archive_all_archives (now : String) :
    ∀ (ids : List String) (st : MemStore) (n : Nat) (mid : String),
      mid ∈ ids → mid ∈ st.recs.map MemRec.id →
      ∃ r' ∈ ((archive_all now st n ids).1).recs,
        r'.id = mid ∧ dictGet r'.meta "archived" = some (.bool true) := by
  intro ids
  induction ids with
  | nil => intro st n mid h; simp at h
  | cons mid0 rest ih =>
    intro st n mid hmem hid
    rcases List.mem_cons.mp hmem with heq | hmem'
    · subst heq
      exact archive_all_keeps_archived now rest _ (n + 1) mid
        (update_memory_sets_archived st mid now hid)
    · apply ih _ (n + 1) mid hmem'
      rw [update_memory_ids]
      exact hid

theorem archive_all_count (now : String) :
    ∀ (ids : List String) (st : MemStore) (n : Nat),
      (archive_all now st n ids).2 = n + ids.length := by
  intro ids
  induction ids with
  | nil => intro st n; simp [archive_all]
  | cons mid0 rest ih =>
    intro st n
    show (archive_all now _ (n + 1) rest).2 = n + (rest.length + 1)
    rw [ih]
    omega

theorem archive_all_ids (now : String) :
    ∀ (ids : List String) (st : MemStore) (n : Nat),
      ((archive_all now st n ids).1).recs.map MemRec.id =
        st.recs.map MemRec.id := by
  intro ids
  induction ids with
  | nil => intro st n; rfl
  | cons mid0 rest ih =>
    intro st n
    show ((archive_all now _ (n + 1) rest).1).recs.map MemRec.id = _
    rw [ih, update_memory_ids]

theorem archive_all_preserves (now : String) :
    ∀ (ids : List String) (st : MemStore) (n : Nat) (r : MemRec),
      r ∈ st.recs → r.id ∉ ids → r ∈ ((archive_all now st n ids).1).recs := by
  intro ids
  induction ids with
  | nil => intro st n r hr _; exact hr
  | cons mid0 rest ih =>
    intro st n r hr hnot
    simp only [List.mem_cons, not_or] at hnot
    apply ih _ (n + 1) r ?_ hnot.2
    unfold update_memory
    cases hm : metaOf st mid0 with
    | none => exact hr
    | some m0 =>
      show r ∈ (setMeta st mid0 _).recs
      unfold setMeta
      exact List.mem_map.mpr ⟨r, hr, by rw [if_neg hnot.1]⟩

/-- Claim C8 counterexample: with one working memory and a reflection
response that parses to a JSON array whose object lacks a `'type'` key,
`consolidate_memories` raises `KeyError` at `insight['type']` — so the
working memory is neither archived nor counted, against the claim's
"regardless of whether reflection succeeds..." guarantee. -/
theorem consolidate_memories_raises_on_untyped_insight :
    consolidate_memories
        ⟨[⟨"w1", "note", [("memory_type", PyVal.str "working")]⟩]⟩ true
        (ReflectOutcome.ok [[("content", PyVal.str "x")]]) (fun _ => "n1") "t" =
      Except.error "KeyError" ∧
    ((⟨[⟨"w1", "note", [("memory_type", PyVal.str "working")]⟩]⟩ :
        MemStore).recs.filter isWorking).length = 1 :=
  ⟨rfl, rfl⟩

/-- Claim C8 (amended: provided every insight object carries a `'type'` key,
with a string `'content'` when the type is `fact`/`experience` — the shape
the reflection prompt requests; other shapes raise, see the counterexample):
`consolidate_memories` succeeds, archives every working memory (deleting
none), returns a consolidated count equal to the number of working memories
regardless of reflection availability or failure, creates new memories only
from `fact` (semantic) / `experience` (episodic) insights collecting their
ids, and returns `{consolidated: 0, created: []}` with no writes when there
are no working memories. -/
theorem consolidate_memories_postcondition (store : MemStore)
    (hasModel : Bool) (ro : ReflectOutcome) (idGen : Nat → String)
    (now : String)
    (hwf : (effInsights hasModel ro).all insightOk = true)
    (hfresh : (store.recs.map MemRec.id ++
      (List.range (countFE (effInsights hasModel ro))).map idGen).Nodup) :
    ∃ st' created,
      consolidate_memories store hasModel ro idGen now =
        .ok (st', ⟨(store.recs.filter isWorking).length, created⟩) ∧
      ((store.recs.filter isWorking).length = 0 →
        st' = store ∧ created = []) ∧
      st'.recs.map MemRec.id = store.recs.map MemRec.id ++ created ∧
      (∀ r ∈ store.recs, isWorking r = true →
        ∃ r' ∈ st'.recs, r'.id = r.id ∧
          dictGet r'.meta "archived" = some (.bool true)) ∧
      (∀ cid ∈ created, ∃ r' ∈ st'.recs, r'.id = cid ∧
        (dictGet r'.meta "memory_type" = some (.str "semantic") ∨
          dictGet r'.meta "memory_type" = some (.str "episodic"))) ∧
      created.length = (if (store.recs.filter isWorking).length = 0 then 0
        else countFE (effInsights hasModel ro)) := by
  by_cases hw : ((store.recs.filter isWorking).map MemRec.id).isEmpty = true
  · have hfe : store.recs.filter isWorking = [] := by
      cases hfl : store.recs.filter isWorking with
      | nil => rfl
      | cons x xs => rw [hfl] at hw; simp at hw
    refine ⟨store, [], ?_, fun _ => ⟨rfl, rfl⟩, by simp, ?_, by simp,
      by simp [hfe]⟩
    · unfold consolidate_memories
      simp [hw, hfe]
    · intro r hr hwork
      exfalso
      have hmem : r ∈ store.recs.filter isWorking :=
        List.mem_filter.mpr ⟨hr, hwork⟩
      rw [hfe] at hmem
      simp at hmem
  · have hne : store.recs.filter isWorking ≠ [] := by
      intro he
      apply hw
      rw [he]
      rfl
    have hlne : (store.recs.filter isWorking).length ≠ 0 :=
      fun h0 => hne (List.length_eq_zero.mp h0)
    obtain ⟨newRecs, hproc, hlen, hprops⟩ :=
      process_insights_ok idGen now (effInsights hasModel ro) store [] 0 hwf
    have hceq : consolidate_memories store hasModel ro idGen now =
        .ok ((archive_all now ⟨store.recs ++ newRecs⟩ 0
            ((store.recs.filter isWorking).map MemRec.id)).1,
          ⟨(archive_all now ⟨store.recs ++ newRecs⟩ 0
            ((store.recs.filter isWorking).map MemRec.id)).2,
            newRecs.map MemRec.id⟩) := by
      unfold consolidate_memories
      dsimp only
      rw [if_neg hw, hproc]
      rfl
    refine ⟨(archive_all now ⟨store.recs ++ newRecs⟩ 0
        ((store.recs.filter isWorking).map MemRec.id)).1,
      newRecs.map MemRec.id, ?_, ?_, ?_, ?_, ?_, ?_⟩
    · rw [hceq]
      have hcnt : (archive_all now ⟨store.recs ++ newRecs⟩ 0
          ((store.recs.filter isWorking).map MemRec.id)).2 =
          (store.recs.filter isWorking).length := by
        rw [archive_all_count]
        simp [List.length_map]
      rw [hcnt]
    · intro h0
      exact absurd h0 hlne
    · rw [archive_all_ids]
      show (store.recs ++ newRecs).map MemRec.id = _
      exact List.map_append _ _ _
    · intro r hr hwork
      apply archive_all_archives
      · exact List.mem_map_of_mem MemRec.id (List.mem_filter.mpr ⟨hr, hwork⟩)
      · show r.id ∈ (store.recs ++ newRecs).map MemRec.id
        rw [List.map_append]
        exact List.mem_append_left _ (List.mem_map_of_mem _ hr)
    · intro cid hcid
      obtain ⟨rec, hrecmem, hrecid⟩ := List.mem_map.mp hcid
      obtain ⟨hty, i, hi0, hilt, hid⟩ := hprops rec hrecmem
      have hdisj := (List.nodup_append.mp hfresh).2.2
      have hin2 : rec.id ∈
          (List.range (countFE (effInsights hasModel ro))).map idGen := by
        rw [hid]
        exact List.mem_map_of_mem idGen (List.mem_range.mpr (by omega))
      have hnotstore : rec.id ∉ store.recs.map MemRec.id :=
        fun hin1 => hdisj hin1 hin2
      have hnotw : rec.id ∉ (store.recs.filter isWorking).map MemRec.id := by
        intro hmem
        apply hnotstore
        obtain ⟨w, hw1, hw2⟩ := List.mem_map.mp hmem
        exact hw2 ▸ List.mem_map_of_mem MemRec.id (List.mem_filter.mp hw1).1
      refine ⟨rec, ?_, hrecid, hty⟩
      apply archive_all_preserves
      · show rec ∈ store.recs ++ newRecs
        exact List.mem_append_right _ hrecmem
      · exact hnotw
    · rw [if_neg hlne]
      simp [List.length_map, hlen]

theorem consolidate_memories_postcondition_witness :
    ∃ st' created,
      consolidate_memories
          ⟨[⟨"w1", "note", [("memory_type", PyVal.str "working")]⟩]⟩ false
          ReflectOutcome.failed (fun _ => "x") "t" =
        .ok (st', ⟨((⟨[⟨"w1", "note",
            [("memory_type", PyVal.str "working")]⟩]⟩ :
            MemStore).recs.filter isWorking).length, created⟩) ∧
      (((⟨[⟨"w1", "note", [("memory_type", PyVal.str "working")]⟩]⟩ :
          MemStore).recs.filter isWorking).length = 0 →
        st' = ⟨[⟨"w1", "note", [("memory_type", PyVal.str "working")]⟩]⟩ ∧
          created = []) ∧
      st'.recs.map MemRec.id =
        (⟨[⟨"w1", "note", [("memory_type", PyVal.str "working")]⟩]⟩ :
          MemStore).recs.map MemRec.id ++ created ∧
      (∀ r ∈ (⟨[⟨"w1", "note", [("memory_type", PyVal.str "working")]⟩]⟩ :
          MemStore).recs, isWorking r = true →
        ∃ r' ∈ st'.recs, r'.id = r.id ∧
          dictGet r'.meta "archived" = some (.bool true)) ∧
      (∀ cid ∈ created, ∃ r' ∈ st'.recs, r'.id = cid ∧
        (dictGet r'.meta "memory_type" = some (.str "semantic") ∨
          dictGet r'.meta "memory_type" = some (.str "episodic"))) ∧
      created.length =
        (if ((⟨[⟨"w1", "note", [("memory_type", PyVal.str "working")]⟩]⟩ :
            MemStore).recs.filter isWorking).length = 0 then 0
          else countFE (effInsights false ReflectOutcome.failed)) :=
  consolidate_memories_postcondition
    ⟨[⟨"w1", "note", [("memory_type", PyVal.str "working")]⟩]⟩ false
    ReflectOutcome.failed (fun _ => "x") "t" (by decide) (by decide)
